import Mathlib

/-!
Verification of the answer-verification and attempt-throttling core of the
route1 scavenger-hunt API (`src/api/src/server.js`).

JavaScript strings are modelled as lists of UTF-16 code units (`List Nat`);
the lowercasing step is modelled on the ASCII range, and the whitespace class
is the ECMAScript one used by both `String.prototype.trim` and the regular
expression class backslash-s.
-/

/-- A JavaScript string, as its sequence of UTF-16 code units. -/
abbrev JsStr := List Nat

/-- Code units of a Lean string literal, for writing concrete JS strings. -/
def strLit (s : String) : JsStr := s.data.map Char.toNat

/-- The ECMAScript whitespace class (WhiteSpace plus LineTerminator):
TAB LF VT FF CR SP NBSP OGHAM-SP, U+2000..U+200A, LS, PS, NNBSP, MMSP,
IDEOGRAPHIC SPACE, BOM. -/
def isJsWs (n : Nat) : Bool :=
  decide (n = 9 ∨ n = 10 ∨ n = 11 ∨ n = 12 ∨ n = 13 ∨ n = 32 ∨ n = 160 ∨
    n = 0x1680 ∨ (0x2000 ≤ n ∧ n ≤ 0x200a) ∨ n = 0x2028 ∨ n = 0x2029 ∨
    n = 0x202f ∨ n = 0x205f ∨ n = 0x3000 ∨ n = 0xfeff)

/-- `String.prototype.toLowerCase`, on the ASCII range (code points outside
A-Z are returned unchanged). -/
def jsToLower (n : Nat) : Nat :=
  if 65 ≤ n ∧ n ≤ 90 then n + 32 else n

/-- Remove trailing whitespace (the right half of `String.prototype.trim`). -/
def trimRight : JsStr → JsStr
  | [] => []
  | c :: cs =>
    match trimRight cs with
    | [] => if isJsWs c then [] else [c]
    | r => c :: r

/-- `String.prototype.trim`: drop leading and trailing whitespace. -/
def jsTrim (l : JsStr) : JsStr := trimRight (l.dropWhile isJsWs)

/-- Global regex replacement of maximal whitespace runs by a single space,
i.e. `.replace(/\s+/g, ' ')`; the flag records whether the previous code unit
was part of a whitespace run already replaced. -/
def collapseAux : Bool → JsStr → JsStr
  | _, [] => []
  | prevWs, c :: cs =>
    if isJsWs c then
      (if prevWs then collapseAux true cs else 32 :: collapseAux true cs)
    else c :: collapseAux false cs

/-- `.replace(/\s+/g, ' ')` on a whole string. -/
def collapseWs (l : JsStr) : JsStr := collapseAux false l

/-- `normalizeAnswer` from `server.js`:
`String(s || '').trim().toLowerCase().replace(/\s+/g, ' ')`.
An absent value (`undefined`) and the empty string are both falsy, hence
normalize to the empty string. -/
def normalizeAnswer (s : Option JsStr) : JsStr :=
  collapseWs ((jsTrim (s.getD [])).map jsToLower)

/-- `String.prototype.split(sep)` for a single-code-unit separator. -/
def splitOnChar (c : Nat) : JsStr → List JsStr
  | [] => [[]]
  | x :: xs =>
    match splitOnChar c xs with
    | [] => [[]]
    | w :: ws => if x = c then [] :: w :: ws else (x :: w) :: ws

/-- Value of one hexadecimal digit, if valid. -/
def hexVal (n : Nat) : Option Nat :=
  if 48 ≤ n ∧ n ≤ 57 then some (n - 48)
  else if 97 ≤ n ∧ n ≤ 102 then some (n - 87)
  else if 65 ≤ n ∧ n ≤ 70 then some (n - 55)
  else none

/-- `Buffer.from(s, 'hex')`: decode pairs of hex digits into bytes, stopping
at the first invalid pair or lone trailing digit. -/
def bufferFromHex : JsStr → List Nat
  | c1 :: c2 :: rest =>
    match hexVal c1, hexVal c2 with
    | some h, some lo => (16 * h + lo) :: bufferFromHex rest
    | _, _ => []
  | _ => []

/-- The code units of the credential tag prefix for plaintext answers. -/
def plainTag : JsStr := strLit "plain:"

/-- The code units of the credential tag prefix for scrypt answers. -/
def scryptTag : JsStr := strLit "scrypt:"

/-- `verifyAnswer` from `server.js`, with the scrypt key derivation passed in
as a function `kdf (normalized input) salt` producing the derived key bytes.
A missing third `split(':')` component makes `Buffer.from(undefined, 'hex')`
throw, modelled by `Except.error`. -/
def verifyAnswer (kdf : JsStr → JsStr → List Nat) (stored : Option JsStr)
    (input : Option JsStr) : Except Unit Bool :=
  match stored with
  | none => Except.ok false
  | some s =>
    if s = [] then Except.ok false
    else if plainTag.isPrefixOf s then
      Except.ok (decide (s.drop 6 = normalizeAnswer input))
    else if scryptTag.isPrefixOf s then
      match (splitOnChar 58 s)[2]? with
      | none => Except.error ()
      | some hx =>
        Except.ok (decide (bufferFromHex hx =
          kdf (normalizeAnswer input) (((splitOnChar 58 s)[1]?).getD [])))
    else Except.ok (decide (s = normalizeAnswer input))

theorem dropWhile_len_le (p : Nat → Bool) (l : JsStr) :
    (l.dropWhile p).length ≤ l.length := by
  induction l with
  | nil => simp
  | cons c cs ih =>
    by_cases h : p c = true
    · simp only [List.dropWhile_cons, h, if_true]
      exact Nat.le_succ_of_le ih
    · simp [List.dropWhile_cons, h]

/-- Split into maximal whitespace-free words (specification-side helper for
the normalization claim). -/
def wordsWs : JsStr → List JsStr
  | [] => []
  | c :: cs =>
    if isJsWs c then wordsWs cs
    else (c :: cs.takeWhile (fun x => !isJsWs x)) ::
      wordsWs (cs.dropWhile (fun x => !isJsWs x))
termination_by l => l.length
decreasing_by
  · simp only [List.length_cons]; omega
  · simp only [List.length_cons]
    exact Nat.lt_succ_of_le (dropWhile_len_le _ _)

/-- Join words with single spaces (specification-side helper). -/
def joinWords : List JsStr → JsStr
  | [] => []
  | [w] => w
  | w :: ws => w ++ 32 :: joinWords ws

/-- Normalization as the specification words it: trim the ends, lowercase,
and collapse every internal whitespace run to a single space — i.e. the
lowercased words joined by single spaces. -/
def specNormalize (s : Option JsStr) : JsStr :=
  joinWords ((wordsWs (s.getD [])).map (List.map jsToLower))

example : normalizeAnswer (some (strLit " Deventer  Koekbier ")) =
    strLit "deventer koekbier" := by decide
example : normalizeAnswer (some []) = [] := by decide
example : verifyAnswer (fun _ _ => []) (some (strLit "plain:de waag"))
    (some (strLit "De   Waag")) = .ok true := rfl
example : verifyAnswer (fun _ _ => []) (some (strLit "plain:de waag"))
    (some (strLit "dewaag")) = .ok false := rfl
example : splitOnChar 58 (strLit "scrypt:ab:00ff") =
    [strLit "scrypt", strLit "ab", strLit "00ff"] := by decide
example : bufferFromHex (strLit "00ff") = [0, 255] := by decide

/-! ## The counter store (Redis) and the rate-limit block -/

/-- One Redis counter: its integer value and, when a TTL has been set, the
absolute time at which the key expires. -/
structure CEntry where
  count : Nat
  expiry : Option Nat
deriving DecidableEq

/-- The volatile counter store: an association list from keys to counters. -/
abbrev CounterStore := List (JsStr × CEntry)

/-- Look a key up in the counter store. -/
def lookupC (st : CounterStore) (k : JsStr) : Option CEntry :=
  (st.find? (fun p => p.1 == k)).map Prod.snd

/-- Overwrite the entry held at a key. -/
def setC (st : CounterStore) (k : JsStr) (e : CEntry) : CounterStore :=
  (k, e) :: st.filter (fun p => !(p.1 == k))

/-- Whether an entry has passed its expiry time (Redis deletes it lazily). -/
def isExpired (e : CEntry) (now : Nat) : Bool :=
  match e.expiry with
  | none => false
  | some t => t ≤ now

/-- `redis.incr key`: an absent or expired key restarts at 1 (with no TTL);
an existing live key is incremented, keeping its TTL. -/
def redisIncr (st : CounterStore) (k : JsStr) (now : Nat) :
    Nat × CounterStore :=
  match lookupC st k with
  | some e =>
    if isExpired e now then (1, setC st k ⟨1, none⟩)
    else (e.count + 1, setC st k ⟨e.count + 1, e.expiry⟩)
  | none => (1, setC st k ⟨1, none⟩)

/-- `redis.expire key secs`: set the key's expiry `secs` from now. -/
def redisExpire (st : CounterStore) (k : JsStr) (secs now : Nat) :
    CounterStore :=
  match lookupC st k with
  | some e => setC st k ⟨e.count, some (now + secs)⟩
  | none => st

/-- Outcome of the rate-limit block: fall through, or reply 429. -/
inductive RlOutcome where
  | proceed
  | throttled
deriving DecidableEq

/-- The rate-limit block of `POST /api/stops/answer` acting on a live store:
increment, set a 30-second expiry iff the increment created the counter,
and throttle once the count exceeds 25. -/
def rlStoreStep (st : CounterStore) (k : JsStr) (now : Nat) :
    RlOutcome × CounterStore :=
  let (tries, st1) := redisIncr st k now
  let st2 := if tries = 1 then redisExpire st1 k 30 now else st1
  (if tries > 25 then RlOutcome.throttled else RlOutcome.proceed, st2)

/-- The optional Redis client: absent (`REDIS_URL` unset), connected, or
raising on every command. -/
inductive RedisConn where
  | absent
  | up (st : CounterStore)
  | failing (st : CounterStore)
deriving DecidableEq

/-- Result of the rate-limit block: its outcome, the client afterwards, and
whether `req.log.warn` fired (the catch arm). -/
structure RlResult where
  outcome : RlOutcome
  conn : RedisConn
  warned : Bool
deriving DecidableEq

/-- The whole `if (redis) { try { ... } catch ... }` block: skipped when the
client is absent; a raising client is caught, logged, and falls through. -/
def rateLimitStep (conn : RedisConn) (k : JsStr) (now : Nat) : RlResult :=
  match conn with
  | RedisConn.absent => ⟨RlOutcome.proceed, RedisConn.absent, false⟩
  | RedisConn.failing st => ⟨RlOutcome.proceed, RedisConn.failing st, true⟩
  | RedisConn.up st =>
    let r := rlStoreStep st k now
    ⟨r.1, RedisConn.up r.2, false⟩

/-- `rl:${runId}:${stopId}`. -/
def rlKey (rid sid : JsStr) : JsStr :=
  strLit "rl:" ++ rid ++ strLit ":" ++ sid

/-- Run the store-level rate-limit step at each time in turn, collecting the
outcomes. -/
def iterateRl (st : CounterStore) (k : JsStr) :
    List Nat → List RlOutcome × CounterStore
  | [] => ([], st)
  | t :: ts =>
    let r := rlStoreStep st k t
    let rest := iterateRl r.2 k ts
    (r.1 :: rest.1, rest.2)

/-! ## The database tables and the progress upserts -/

/-- The columns of `stops` read by the answer and hint handlers. -/
structure StopRow where
  answer_hash : JsStr
  hint_markdown : Option JsStr
  hint_penalty : Int

/-- One row of the `progress` table. -/
structure ProgressRow where
  team_id : JsStr
  stop_id : JsStr
  solved_at : Option Nat
  used_hint : Bool
deriving DecidableEq

/-- Whether a progress row is the row of the given (team, stop) pair. -/
def rowKey (r : ProgressRow) (team stop : JsStr) : Bool :=
  r.team_id == team && r.stop_id == stop

/-- The first (under the uniqueness invariant: the only) row of a
(team, stop) pair. -/
def getRow : List ProgressRow → JsStr → JsStr → Option ProgressRow
  | [], _, _ => none
  | r :: rs, team, stop =>
    if rowKey r team stop then some r else getRow rs team stop

/-- How many rows a (team, stop) pair has. -/
def countKey : List ProgressRow → JsStr → JsStr → Nat
  | [], _, _ => 0
  | r :: rs, team, stop =>
    (if rowKey r team stop then 1 else 0) + countKey rs team stop

/-- The `progress` invariant: at most one row per (team, stop) pair. -/
def ProgressInv (p : List ProgressRow) : Prop :=
  List.Pairwise (fun a b => ¬(a.team_id = b.team_id ∧ a.stop_id = b.stop_id)) p

/-- `INSERT ... ON CONFLICT (team_id, stop_id) DO UPDATE`: update the
matching row if one exists, otherwise append the fresh row. -/
def upsertProgress (p : List ProgressRow) (team stop : JsStr)
    (ins : ProgressRow) (upd : ProgressRow → ProgressRow) : List ProgressRow :=
  if p.any (fun r => rowKey r team stop) then
    p.map (fun r => if rowKey r team stop then upd r else r)
  else p ++ [ins]

/-- The solved upsert of the answer handler:
`INSERT INTO progress(team_id, stop_id, solved_at) SELECT team_id, $1, now()
FROM runs WHERE id=$2 ON CONFLICT (team_id, stop_id) DO UPDATE SET
solved_at=excluded.solved_at`. If the run id matches no run, zero rows are
selected and nothing is inserted or updated. -/
def upsertSolved (runs : JsStr → Option JsStr) (p : List ProgressRow)
    (stopId runId : JsStr) (now : Nat) : List ProgressRow :=
  match runs runId with
  | none => p
  | some team =>
    upsertProgress p team stopId ⟨team, stopId, some now, false⟩
      (fun r => { r with solved_at := some now })

/-- The hint upsert of the hint handler:
`INSERT INTO progress(team_id, stop_id, used_hint) SELECT team_id, $1, true
FROM runs WHERE id=$2 ON CONFLICT (team_id, stop_id) DO UPDATE SET
used_hint=true`. -/
def upsertHint (runs : JsStr → Option JsStr) (p : List ProgressRow)
    (stopId runId : JsStr) : List ProgressRow :=
  match runs runId with
  | none => p
  | some team =>
    upsertProgress p team stopId ⟨team, stopId, none, true⟩
      (fun r => { r with used_hint := true })

/-! ## The answer handler -/

/-- The database as the answer handler sees it: the two tables it reads and
the table it writes. `runs` maps a run id to the run's `team_id`. -/
structure Db where
  stops : JsStr → Option StopRow
  runs : JsStr → Option JsStr
  progress : List ProgressRow

/-- The deserialized body of `POST /api/stops/answer`. -/
structure AnswerReq where
  runId : Option JsStr
  stopId : Option JsStr
  answer : Option JsStr

/-- The responses the answer handler can produce: 400, 429, 404, or 200 with
a correctness flag. -/
inductive Resp where
  | badRequest
  | tooMany
  | notFound
  | answer (correct : Bool)
deriving DecidableEq

/-- JavaScript falsiness of an optional string: `undefined` and `''`. -/
def isFalsy : Option JsStr → Bool
  | none => true
  | some s => s == []

/-- The tail of the answer handler after the rate-limit block: look the stop
up (404 when absent), verify the answer, and on success upsert progress.
A rejection inside verification propagates as a request error. -/
def verificationFlow (kdf : JsStr → JsStr → List Nat) (db : Db)
    (req : AnswerReq) (now : Nat) : Except Unit (Resp × Db) :=
  match db.stops (req.stopId.getD []) with
  | none => Except.ok (Resp.notFound, db)
  | some st =>
    match verifyAnswer kdf (some st.answer_hash) req.answer with
    | Except.error e => Except.error e
    | Except.ok false => Except.ok (Resp.answer false, db)
    | Except.ok true =>
      Except.ok (Resp.answer true,
        { db with progress := (upsertSolved db.runs db.progress
            (req.stopId.getD []) (req.runId.getD []) now) })

/-- `POST /api/stops/answer`: validate the ids, run the rate-limit block,
then the verification flow. -/
def answerHandler (kdf : JsStr → JsStr → List Nat) (db : Db)
    (conn : RedisConn) (req : AnswerReq) (now : Nat) :
    Except Unit (Resp × Db × RedisConn) :=
  if isFalsy req.runId || isFalsy req.stopId then
    Except.ok (Resp.badRequest, db, conn)
  else
    let rl := rateLimitStep conn
      (rlKey (req.runId.getD []) (req.stopId.getD [])) now
    if rl.outcome = RlOutcome.throttled then
      Except.ok (Resp.tooMany, db, rl.conn)
    else
      match verificationFlow kdf db req now with
      | Except.error e => Except.error e
      | Except.ok (resp, db1) => Except.ok (resp, db1, rl.conn)

example :
    (iterateRl [] (strLit "rl:r:s") (List.replicate 26 3)).1.get? 25 =
      some RlOutcome.throttled := by decide
example :
    (iterateRl [] (strLit "rl:r:s") (List.replicate 25 3)).1.get? 24 =
      some RlOutcome.proceed := by decide
example :
    lookupC (iterateRl [] (strLit "k") [4]).2 (strLit "k") =
      some ⟨1, some 34⟩ := by decide

/-! ## Normalization: the source pipeline equals the specification wording -/

theorem jsToLower_ws (n : Nat) : isJsWs (jsToLower n) = isJsWs n := by
  by_cases h : 65 ≤ n ∧ n ≤ 90
  · simp only [jsToLower, if_pos h, isJsWs, decide_eq_decide]
    omega
  · simp [jsToLower, h]

theorem jsToLower_space : jsToLower 32 = 32 := by decide

theorem dropWhile_head_false (p : Nat → Bool) :
    ∀ (l : JsStr) (x : Nat) (xs : JsStr), l.dropWhile p = x :: xs →
      p x = false := by
  intro l
  induction l with
  | nil => intro x xs h; simp at h
  | cons c cs ih =>
    intro x xs h
    by_cases hp : p c = true
    · rw [List.dropWhile_cons, if_pos hp] at h
      exact ih x xs h
    · rw [List.dropWhile_cons, if_neg hp] at h
      injection h with h1 h2
      subst h1
      simpa using hp

theorem trimRight_cons_nil (c : Nat) (cs : JsStr) (h : trimRight cs = []) :
    trimRight (c :: cs) = if isJsWs c then [] else [c] := by
  simp [trimRight, h]

theorem trimRight_cons_cons (c : Nat) (cs : JsStr) (y : Nat) (r : JsStr)
    (h : trimRight cs = y :: r) : trimRight (c :: cs) = c :: y :: r := by
  simp [trimRight, h]

theorem trimRight_append_nil (l1 l2 : JsStr) (h : trimRight l2 = []) :
    trimRight (l1 ++ l2) = trimRight l1 := by
  induction l1 with
  | nil => simpa using h
  | cons c cs ih =>
    simp only [List.cons_append]
    cases hcs : trimRight cs with
    | nil =>
      rw [trimRight_cons_nil _ _ (by rw [ih, hcs]),
        trimRight_cons_nil _ _ hcs]
    | cons y r =>
      rw [trimRight_cons_cons _ _ _ _ (by rw [ih, hcs]),
        trimRight_cons_cons _ _ _ _ hcs]

theorem trimRight_append_of_ne_nil (l1 l2 : JsStr) (h : trimRight l2 ≠ []) :
    trimRight (l1 ++ l2) = l1 ++ trimRight l2 := by
  induction l1 with
  | nil => simp
  | cons c cs ih =>
    simp only [List.cons_append]
    cases hr : trimRight (cs ++ l2) with
    | nil =>
      rw [ih] at hr
      rcases List.append_eq_nil.mp hr with ⟨-, h2⟩
      exact absurd h2 h
    | cons y r =>
      rw [trimRight_cons_cons _ _ _ _ hr, ← hr, ih]

theorem trimRight_all_nonws (l : JsStr) (h : ∀ x ∈ l, isJsWs x = false) :
    trimRight l = l := by
  induction l with
  | nil => rfl
  | cons c cs ih =>
    have hc : isJsWs c = false := h c (List.mem_cons_self _ _)
    have ihe : trimRight cs = cs :=
      ih (fun x hx => h x (List.mem_cons_of_mem _ hx))
    cases hcs : trimRight cs with
    | nil =>
      have hnil : cs = [] := by rw [← ihe]; exact hcs
      subst hnil
      simp [trimRight, hc]
    | cons y r =>
      rw [trimRight_cons_cons _ _ _ _ hcs, ← hcs, ihe]

theorem trimRight_all_ws (l : JsStr) (h : ∀ x ∈ l, isJsWs x = true) :
    trimRight l = [] := by
  induction l with
  | nil => rfl
  | cons c cs ih =>
    have hrec : trimRight cs = [] :=
      ih (fun x hx => h x (List.mem_cons_of_mem _ hx))
    rw [trimRight_cons_nil _ _ hrec]
    simp [h c (List.mem_cons_self _ _)]

theorem all_ws_of_trimRight_nil (l : JsStr) (h : trimRight l = []) :
    ∀ x ∈ l, isJsWs x = true := by
  induction l with
  | nil => simp
  | cons c cs ih =>
    cases hcs : trimRight cs with
    | cons y r =>
      rw [trimRight_cons_cons _ _ _ _ hcs] at h
      exact absurd h (by simp)
    | nil =>
      rw [trimRight_cons_nil _ _ hcs] at h
      cases hws : isJsWs c with
      | false => rw [hws] at h; simp at h
      | true =>
        intro x hx
        rcases List.mem_cons.mp hx with rfl | hx2
        · exact hws
        · exact ih hcs x hx2

theorem trimRight_cons_of_nonws (y : Nat) (e : JsStr)
    (h : isJsWs y = false) : ∃ r, trimRight (y :: e) = y :: r := by
  cases hcs : trimRight e with
  | nil => exact ⟨[], by rw [trimRight_cons_nil _ _ hcs]; simp [h]⟩
  | cons a b => exact ⟨a :: b, trimRight_cons_cons _ _ _ _ hcs⟩

theorem collapseAux_pass (l1 m : JsStr) (h : ∀ x ∈ l1, isJsWs x = false) :
    collapseAux false (l1 ++ m) = l1 ++ collapseAux false m := by
  induction l1 with
  | nil => rfl
  | cons c cs ih =>
    have hc := h c (List.mem_cons_self _ _)
    have ih2 := ih (fun x hx => h x (List.mem_cons_of_mem _ hx))
    simp [collapseAux, hc, ih2]

theorem collapseAux_skip_ws (w m : JsStr) (h : ∀ x ∈ w, isJsWs x = true) :
    collapseAux true (w ++ m) = collapseAux true m := by
  induction w with
  | nil => rfl
  | cons c cs ih =>
    have hc := h c (List.mem_cons_self _ _)
    have ih2 := ih (fun x hx => h x (List.mem_cons_of_mem _ hx))
    simp [collapseAux, hc, ih2]

theorem collapseAux_true_eq_false (y : Nat) (r : JsStr)
    (h : isJsWs y = false) :
    collapseAux true (y :: r) = collapseAux false (y :: r) := by
  simp [collapseAux, h]

theorem collapseAux_ws_block (w m : JsStr) (hw : ∀ x ∈ w, isJsWs x = true)
    (hne : w ≠ []) :
    collapseAux false (w ++ m) = 32 :: collapseAux true m := by
  cases w with
  | nil => exact absurd rfl hne
  | cons z zs =>
    have hz := hw z (List.mem_cons_self _ _)
    have hrest :=
      collapseAux_skip_ws zs m (fun x hx => hw x (List.mem_cons_of_mem _ hx))
    simp [collapseAux, hz, hrest]

theorem wordsWs_nil : wordsWs [] = [] := by simp [wordsWs]

theorem wordsWs_cons_ws (c : Nat) (cs : JsStr) (h : isJsWs c = true) :
    wordsWs (c :: cs) = wordsWs cs := by
  rw [wordsWs]
  simp [h]

theorem wordsWs_cons_nonws (c : Nat) (cs : JsStr) (h : isJsWs c = false) :
    wordsWs (c :: cs) = (c :: cs.takeWhile (fun x => !isJsWs x)) ::
      wordsWs (cs.dropWhile (fun x => !isJsWs x)) := by
  rw [wordsWs]
  simp [h]

theorem wordsWs_skip (w m : JsStr) (h : ∀ x ∈ w, isJsWs x = true) :
    wordsWs (w ++ m) = wordsWs m := by
  induction w with
  | nil => rfl
  | cons c cs ih =>
    rw [List.cons_append, wordsWs_cons_ws _ _ (h c (List.mem_cons_self _ _))]
    exact ih (fun x hx => h x (List.mem_cons_of_mem _ hx))

theorem wordsWs_all_ws (d : JsStr) (h : ∀ x ∈ d, isJsWs x = true) :
    wordsWs d = [] := by
  have := wordsWs_skip d [] h
  simpa [wordsWs_nil] using this

theorem joinWords_cons (w : JsStr) (V : List JsStr) (h : V ≠ []) :
    joinWords (w :: V) = w ++ 32 :: joinWords V := by
  cases V with
  | nil => exact absurd rfl h
  | cons a b => rfl

theorem collapse_trim_eq_joinWords :
    ∀ n : Nat, ∀ l : JsStr, l.length ≤ n →
      collapseWs (jsTrim l) = joinWords (wordsWs l) := by
  intro n
  induction n with
  | zero =>
    intro l hl
    have : l = [] := List.length_eq_zero.mp (Nat.le_zero.mp hl)
    subst this
    simp [collapseWs, jsTrim, trimRight, collapseAux, wordsWs_nil, joinWords]
  | succ n ih =>
    intro l hl
    cases l with
    | nil =>
      simp [collapseWs, jsTrim, trimRight, collapseAux, wordsWs_nil, joinWords]
    | cons c cs =>
      have hcsn : cs.length ≤ n := by
        simpa using Nat.le_of_succ_le_succ (by simpa using hl)
      cases hc : isJsWs c with
      | true =>
        have h1 : jsTrim (c :: cs) = jsTrim cs := by
          simp [jsTrim, List.dropWhile_cons, hc]
        rw [h1, wordsWs_cons_ws c cs hc]
        exact ih cs hcsn
      | false =>
        have hdw : (c :: cs).dropWhile isJsWs = c :: cs := by
          simp [List.dropWhile_cons, hc]
        set t := cs.takeWhile (fun x => !isJsWs x) with ht
        set d := cs.dropWhile (fun x => !isJsWs x) with hd
        have hcs_split : t ++ d = cs :=
          List.takeWhile_append_dropWhile (fun x => !isJsWs x) cs
        have htn : ∀ x ∈ t, isJsWs x = false := by
          intro x hx
          have := List.mem_takeWhile_imp hx
          simpa using this
        have hct : ∀ x ∈ c :: t, isJsWs x = false := by
          intro x hx
          rcases List.mem_cons.mp hx with rfl | hx2
          · exact hc
          · exact htn x hx2
        have hlcs : c :: cs = (c :: t) ++ d := by
          rw [← hcs_split]
          rfl
        have hdlen : d.length ≤ cs.length := by
          rw [hd]; exact dropWhile_len_le _ _
        have hwords : wordsWs (c :: cs) =
            (c :: t) :: wordsWs d := wordsWs_cons_nonws c cs hc
        have hjs : jsTrim (c :: cs) = trimRight ((c :: t) ++ d) := by
          rw [jsTrim, hdw, hlcs]
        cases hdnil : trimRight d with
        | nil =>
          have hdws : ∀ x ∈ d, isJsWs x = true := all_ws_of_trimRight_nil d hdnil
          have h2 : jsTrim (c :: cs) = c :: t := by
            rw [hjs, trimRight_append_nil _ _ hdnil, trimRight_all_nonws _ hct]
          rw [h2, hwords, wordsWs_all_ws d hdws]
          have h3 := collapseAux_pass (c :: t) [] hct
          simp only [List.append_nil] at h3
          rw [collapseWs, h3]
          simp [collapseAux, joinWords]
        | cons y0 r0 =>
          have hdne : trimRight d ≠ [] := by rw [hdnil]; simp
          set w := d.takeWhile isJsWs with hw
          set d' := d.dropWhile isJsWs with hd'
          have hdsplit : w ++ d' = d :=
            List.takeWhile_append_dropWhile isJsWs d
          have hwws : ∀ x ∈ w, isJsWs x = true :=
            fun x hx => List.mem_takeWhile_imp hx
          cases hd'e : d' with
          | nil =>
            exfalso
            have hall : ∀ x ∈ d, isJsWs x = true := by
              rw [← hdsplit, hd'e]
              simpa using hwws
            rw [trimRight_all_ws d hall] at hdnil
            exact List.noConfusion hdnil
          | cons y e2 =>
            have hy : isJsWs y = false := by
              have := dropWhile_head_false isJsWs d y e2
                (by rw [← hd']; exact hd'e)
              exact this
            obtain ⟨r2, hr2⟩ := trimRight_cons_of_nonws y e2 hy
            have htrd' : trimRight d' ≠ [] := by
              rw [hd'e, hr2]; simp
            have htr_d : trimRight d = w ++ trimRight d' := by
              rw [← hdsplit]
              exact trimRight_append_of_ne_nil w d' htrd'
            have hdne2 : d ≠ [] := by
              intro hcon
              rw [hcon] at hdnil
              exact List.noConfusion hdnil
            have hwne : w ≠ [] := by
              cases hdc : d with
              | nil => exact absurd hdc hdne2
              | cons z zs =>
                have hz : isJsWs z = true := by
                  have := dropWhile_head_false (fun x => !isJsWs x) cs z zs
                    (by rw [← hd]; exact hdc)
                  simpa using this
                rw [hw, hdc]
                simp [List.takeWhile_cons, hz]
            have hjtd' : jsTrim d' = trimRight d' := by
              rw [jsTrim, hd'e, List.dropWhile_cons, if_neg (by simp [hy])]
            have hd'len : d'.length ≤ n := by
              calc d'.length ≤ d.length := by rw [hd']; exact dropWhile_len_le _ _
                _ ≤ cs.length := hdlen
                _ ≤ n := hcsn
            have hih : collapseWs (jsTrim d') = joinWords (wordsWs d') :=
              ih d' hd'len
            have hwd : wordsWs d = wordsWs d' := by
              rw [← hdsplit]
              exact wordsWs_skip w d' hwws
            have hwd'ne : wordsWs d' ≠ [] := by
              rw [hd'e, wordsWs_cons_nonws y e2 hy]
              simp
            calc collapseWs (jsTrim (c :: cs))
                = collapseAux false ((c :: t) ++ trimRight d) := by
                  rw [collapseWs, hjs,
                    trimRight_append_of_ne_nil (c :: t) d hdne]
              _ = (c :: t) ++ collapseAux false (trimRight d) :=
                  collapseAux_pass _ _ hct
              _ = (c :: t) ++ collapseAux false (w ++ trimRight d') := by
                  rw [htr_d]
              _ = (c :: t) ++ 32 :: collapseAux true (trimRight d') := by
                  rw [collapseAux_ws_block w _ hwws hwne]
              _ = (c :: t) ++ 32 :: collapseAux false (trimRight d') := by
                  rw [hd'e, hr2, collapseAux_true_eq_false y r2 hy]
              _ = (c :: t) ++ 32 :: collapseWs (jsTrim d') := by
                  rw [collapseWs, hjtd']
              _ = (c :: t) ++ 32 :: joinWords (wordsWs d') := by rw [hih]
              _ = joinWords ((c :: t) :: wordsWs d') := by
                  rw [joinWords_cons _ _ hwd'ne]
              _ = joinWords (wordsWs (c :: cs)) := by rw [hwords, hwd]

theorem collapseAux_map (m : JsStr) :
    ∀ b : Bool, collapseAux b (m.map jsToLower) =
      (collapseAux b m).map jsToLower := by
  induction m with
  | nil => intro b; rfl
  | cons c cs ih =>
    intro b
    cases hc : isJsWs c with
    | true =>
      cases b with
      | true => simp [collapseAux, jsToLower_ws, hc, ih true]
      | false =>
        simp [collapseAux, jsToLower_ws, hc, ih true, jsToLower_space]
    | false => simp [collapseAux, jsToLower_ws, hc, ih false]

theorem joinWords_map (V : List JsStr) :
    joinWords (V.map (List.map jsToLower)) =
      (joinWords V).map jsToLower := by
  induction V with
  | nil => rfl
  | cons w V2 ih =>
    cases V2 with
    | nil => rfl
    | cons a V3 =>
      have hne1 : (a :: V3).map (List.map jsToLower) ≠ [] := by simp
      rw [List.map_cons, joinWords_cons _ _ hne1,
        joinWords_cons _ _ (by simp), List.map_append, ih]
      simp [jsToLower_space]

/-! ## Parsing the tagged credential -/

theorem splitOnChar_ne_nil (c : Nat) (l : JsStr) : splitOnChar c l ≠ [] := by
  cases l with
  | nil => simp [splitOnChar]
  | cons x xs =>
    simp only [splitOnChar]
    cases h : splitOnChar c xs with
    | nil => simp
    | cons w ws => by_cases hx : x = c <;> simp [hx]

theorem splitOnChar_no_sep (c : Nat) (l : JsStr) (h : c ∉ l) :
    splitOnChar c l = [l] := by
  induction l with
  | nil => rfl
  | cons x xs ih =>
    have hx : ¬x = c := fun e => h (e ▸ List.mem_cons_self _ _)
    have ih2 := ih (fun hm => h (List.mem_cons_of_mem _ hm))
    simp [splitOnChar, ih2, hx]

theorem splitOnChar_append (c : Nat) (l1 l2 : JsStr) (h : c ∉ l1) :
    splitOnChar c (l1 ++ c :: l2) = l1 :: splitOnChar c l2 := by
  induction l1 with
  | nil =>
    simp only [List.nil_append, splitOnChar]
    cases h2 : splitOnChar c l2 with
    | nil => exact absurd h2 (splitOnChar_ne_nil c l2)
    | cons w ws => simp
  | cons x xs ih =>
    have hx : ¬x = c := fun e => h (e ▸ List.mem_cons_self _ _)
    have ih2 := ih (fun hm => h (List.mem_cons_of_mem _ hm))
    simp [splitOnChar, ih2, hx]

theorem isPrefixOf_append_self (l m : JsStr) : l.isPrefixOf (l ++ m) = true := by
  induction l with
  | nil => simp [List.isPrefixOf]
  | cons c cs ih => simp [List.isPrefixOf, ih]

theorem plainTag_not_prefix_scrypt (rest : JsStr) :
    plainTag.isPrefixOf (scryptTag ++ rest) = false := by
  have h1 : plainTag = [112, 108, 97, 105, 110, 58] := by decide
  have h2 : scryptTag = [115, 99, 114, 121, 112, 116, 58] := by decide
  rw [h1, h2]
  simp [List.isPrefixOf]

/-! ## Claim theorems about normalization and verification -/

/-- Claim C8: for every input, `normalizeAnswer` trims the ends, lowercases,
and collapses each internal whitespace run to a single space — it agrees with
the word-based specification reading on every string — and the concrete
examples of the specification hold, with empty and absent input normalizing
to the empty string. -/
theorem normalizeAnswer_spec :
    (∀ s : Option JsStr, normalizeAnswer s = specNormalize s)
    ∧ normalizeAnswer (some (strLit " Deventer  Koekbier ")) =
        strLit "deventer koekbier"
    ∧ normalizeAnswer (some []) = []
    ∧ normalizeAnswer none = [] := by
  refine ⟨?_, by decide, by decide, by decide⟩
  intro s
  have hcore := collapse_trim_eq_joinWords (s.getD []).length (s.getD []) le_rfl
  unfold normalizeAnswer specNormalize
  unfold collapseWs at hcore ⊢
  rw [collapseAux_map, hcore, joinWords_map]

/-- Claim C7: for a stored credential `plain:<answer>`, verification succeeds
exactly when the stored answer literal (not re-normalized) equals the
normalized input, and the specification's two concrete examples hold. -/
theorem verifyAnswer_plain_spec :
    (∀ (kdf : JsStr → JsStr → List Nat) (ans : JsStr) (input : Option JsStr),
      verifyAnswer kdf (some (plainTag ++ ans)) input = Except.ok true ↔
        ans = normalizeAnswer input)
    ∧ verifyAnswer (fun _ _ => []) (some (strLit "plain:de waag"))
        (some (strLit "De   Waag")) = Except.ok true
    ∧ verifyAnswer (fun _ _ => []) (some (strLit "plain:de waag"))
        (some (strLit "dewaag")) = Except.ok false := by
  refine ⟨?_, rfl, rfl⟩
  intro kdf ans input
  have h1 : plainTag = [112, 108, 97, 105, 110, 58] := by decide
  have hne : plainTag ++ ans ≠ [] := by rw [h1]; simp
  have hpre : plainTag.isPrefixOf (plainTag ++ ans) = true :=
    isPrefixOf_append_self _ _
  have hdrop : (plainTag ++ ans).drop 6 = ans := by
    have h6 : (6 : Nat) = plainTag.length := by decide
    rw [h6, List.drop_left]
  simp [verifyAnswer, hne, hpre, hdrop]

/-- Claim C9: a missing or empty stored credential verifies to false without
throwing, and a non-empty credential carrying neither recognized tag verifies
by plain string equality between the whole stored value and the normalized
input (again without throwing). -/
theorem verifyAnswer_fallback_spec :
    (∀ (kdf : JsStr → JsStr → List Nat) (input : Option JsStr),
      verifyAnswer kdf none input = Except.ok false
      ∧ verifyAnswer kdf (some []) input = Except.ok false)
    ∧ (∀ (kdf : JsStr → JsStr → List Nat) (s : JsStr) (input : Option JsStr),
        s ≠ [] → plainTag.isPrefixOf s = false →
        scryptTag.isPrefixOf s = false →
        verifyAnswer kdf (some s) input =
          Except.ok (decide (s = normalizeAnswer input))) := by
  constructor
  · intro kdf input
    exact ⟨rfl, rfl⟩
  · intro kdf s input hne hp hs
    simp [verifyAnswer, hne, hp, hs]

theorem verifyAnswer_fallback_spec_witness :
    verifyAnswer (fun _ _ => []) (some (strLit "unknown-tag:xyz"))
      (some (strLit "xyz")) =
      Except.ok (decide (strLit "unknown-tag:xyz" =
        normalizeAnswer (some (strLit "xyz")))) :=
  verifyAnswer_fallback_spec.2 (fun _ _ => []) (strLit "unknown-tag:xyz")
    (some (strLit "xyz")) (by decide) (by decide) (by decide)

/-- Claim C6: for a stored credential `scrypt:<salt>:<digest>` (salt and
digest free of colons), verification succeeds exactly when the decoded digest
byte-equals the key derived from the normalized input and the salt; the
derivation inputs being fixed makes the outcome deterministic, and a derived
key differing from the digest (wrong input or wrong salt) verifies to
false. -/
theorem verifyAnswer_scrypt_spec :
    ∀ (kdf : JsStr → JsStr → List Nat) (salt hx : JsStr) (input : Option JsStr),
      (58 : Nat) ∉ salt → (58 : Nat) ∉ hx →
      (verifyAnswer kdf (some (scryptTag ++ salt ++ 58 :: hx)) input =
          Except.ok true ↔
        bufferFromHex hx = kdf (normalizeAnswer input) salt)
      ∧ (∀ input2 : Option JsStr,
          normalizeAnswer input = normalizeAnswer input2 →
          verifyAnswer kdf (some (scryptTag ++ salt ++ 58 :: hx)) input =
            verifyAnswer kdf (some (scryptTag ++ salt ++ 58 :: hx)) input2)
      ∧ (bufferFromHex hx ≠ kdf (normalizeAnswer input) salt →
          verifyAnswer kdf (some (scryptTag ++ salt ++ 58 :: hx)) input =
            Except.ok false) := by
  intro kdf salt hx input hsalt hhx
  have hassoc : scryptTag ++ salt ++ 58 :: hx =
      scryptTag ++ (salt ++ 58 :: hx) := by
    rw [List.append_assoc]
  have hne : scryptTag ++ salt ++ 58 :: hx ≠ [] := by
    rw [hassoc]
    simp [scryptTag, strLit]
  have hplain : plainTag.isPrefixOf (scryptTag ++ salt ++ 58 :: hx) = false := by
    rw [hassoc]
    exact plainTag_not_prefix_scrypt _
  have hpre : scryptTag.isPrefixOf (scryptTag ++ salt ++ 58 :: hx) = true := by
    rw [hassoc]
    exact isPrefixOf_append_self _ _
  have hsp6 : scryptTag = strLit "scrypt" ++ [58] := by decide
  have hsplit : splitOnChar 58 (scryptTag ++ salt ++ 58 :: hx) =
      [strLit "scrypt", salt, hx] := by
    rw [hassoc, hsp6, List.append_assoc]
    have h58 : (58 : Nat) ∉ strLit "scrypt" := by decide
    rw [show ([58] : JsStr) ++ (salt ++ 58 :: hx) = 58 :: (salt ++ 58 :: hx)
      from rfl]
    rw [splitOnChar_append 58 (strLit "scrypt") _ h58,
      splitOnChar_append 58 salt hx hsalt, splitOnChar_no_sep 58 hx hhx]
  have hplain2 : ¬plainTag <+: scryptTag ++ (salt ++ 58 :: hx) := by
    intro hp
    have hp2 : plainTag.isPrefixOf (scryptTag ++ (salt ++ 58 :: hx)) = true :=
      List.isPrefixOf_iff_prefix.mpr hp
    rw [← hassoc, hplain] at hp2
    exact Bool.noConfusion hp2
  have hpre2 : scryptTag <+: scryptTag ++ (salt ++ 58 :: hx) :=
    List.prefix_append _ _
  have hne2 : scryptTag ++ (salt ++ 58 :: hx) ≠ [] := by
    rw [← hassoc]
    exact hne
  have hsplit2 : splitOnChar 58 (scryptTag ++ (salt ++ 58 :: hx)) =
      [strLit "scrypt", salt, hx] := by
    rw [← hassoc]
    exact hsplit
  have hval : ∀ inp : Option JsStr,
      verifyAnswer kdf (some (scryptTag ++ salt ++ 58 :: hx)) inp =
        Except.ok (decide (bufferFromHex hx =
          kdf (normalizeAnswer inp) salt)) := by
    intro inp
    rw [hassoc]
    simp [verifyAnswer, hne2, hplain2, hpre2, hsplit2]
  refine ⟨?_, ?_, ?_⟩
  · rw [hval input]
    simp
  · intro input2 h
    rw [hval input, hval input2, h]
  · intro hneq
    rw [hval input]
    simp [hneq]

theorem verifyAnswer_scrypt_spec_witness :
    verifyAnswer (fun i s => [i.length + s.length])
      (some (scryptTag ++ strLit "ab" ++ 58 :: strLit "00ff"))
      (some (strLit "x")) = Except.ok false :=
  (verifyAnswer_scrypt_spec (fun i s => [i.length + s.length]) (strLit "ab")
    (strLit "00ff") (some (strLit "x")) (by decide) (by decide)).2.2 (by decide)

/-! ## Progress upserts: uniqueness, flag preservation, idempotence -/

theorem rowKey_iff (r : ProgressRow) (team stop : JsStr) :
    rowKey r team stop = true ↔ r.team_id = team ∧ r.stop_id = stop := by
  simp [rowKey]

theorem rowKey_congr (r r2 : ProgressRow) (team stop : JsStr)
    (h1 : r2.team_id = r.team_id) (h2 : r2.stop_id = r.stop_id) :
    rowKey r2 team stop = rowKey r team stop := by
  simp [rowKey, h1, h2]

theorem getRow_some_key (team stop : JsStr) :
    ∀ (p : List ProgressRow) (r : ProgressRow),
      getRow p team stop = some r → rowKey r team stop = true := by
  intro p
  induction p with
  | nil => intro r h; simp [getRow] at h
  | cons a rs ih =>
    intro r h
    cases ha : rowKey a team stop with
    | true =>
      simp only [getRow, ha, if_true] at h
      injection h with h1
      subst h1
      exact ha
    | false =>
      simp only [getRow, ha, Bool.false_eq_true, if_false] at h
      exact ih r h

theorem getRow_eq_none_of_all_false (team stop : JsStr)
    (p : List ProgressRow) (h : ∀ r ∈ p, rowKey r team stop = false) :
    getRow p team stop = none := by
  induction p with
  | nil => rfl
  | cons a rs ih =>
    have ha := h a (List.mem_cons_self _ _)
    simp only [getRow, ha, Bool.false_eq_true, if_false]
    exact ih (fun r hr => h r (List.mem_cons_of_mem _ hr))

theorem getRow_append_of_none (team stop : JsStr) (p q : List ProgressRow)
    (h : getRow p team stop = none) :
    getRow (p ++ q) team stop = getRow q team stop := by
  induction p with
  | nil => rfl
  | cons a rs ih =>
    cases ha : rowKey a team stop with
    | true => simp [getRow, ha] at h
    | false =>
      simp only [getRow, ha, Bool.false_eq_true, if_false] at h
      simp only [List.cons_append, getRow, ha, Bool.false_eq_true, if_false]
      exact ih h

theorem countKey_eq_zero (team stop : JsStr) (p : List ProgressRow)
    (h : ∀ r ∈ p, rowKey r team stop = false) :
    countKey p team stop = 0 := by
  induction p with
  | nil => rfl
  | cons a rs ih =>
    have ha := h a (List.mem_cons_self _ _)
    simp only [countKey, ha, Bool.false_eq_true, if_false]
    simpa using ih (fun r hr => h r (List.mem_cons_of_mem _ hr))

theorem countKey_append (team stop : JsStr) (p q : List ProgressRow) :
    countKey (p ++ q) team stop =
      countKey p team stop + countKey q team stop := by
  induction p with
  | nil => simp [countKey]
  | cons a rs ih =>
    show (if rowKey a team stop = true then 1 else 0) +
        countKey (rs ++ q) team stop =
      (if rowKey a team stop = true then 1 else 0) +
        countKey rs team stop + countKey q team stop
    rw [ih]
    omega

theorem getRow_map_cond (team stop : JsStr) (upd : ProgressRow → ProgressRow)
    (hkt : ∀ r, (upd r).team_id = r.team_id)
    (hks : ∀ r, (upd r).stop_id = r.stop_id) :
    ∀ p : List ProgressRow,
      getRow (p.map fun r => if rowKey r team stop then upd r else r)
        team stop = (getRow p team stop).map upd := by
  intro p
  induction p with
  | nil => rfl
  | cons a rs ih =>
    cases ha : rowKey a team stop with
    | true =>
      have hk2 : rowKey (upd a) team stop = true := by
        rw [rowKey_congr a (upd a) team stop (hkt a) (hks a), ha]
      simp only [List.map_cons, ha, if_true, getRow, hk2, Option.map_some']
    | false =>
      simp only [List.map_cons, ha, Bool.false_eq_true, if_false, getRow]
      exact ih

theorem countKey_map_cond (team stop : JsStr) (upd : ProgressRow → ProgressRow)
    (hkt : ∀ r, (upd r).team_id = r.team_id)
    (hks : ∀ r, (upd r).stop_id = r.stop_id) :
    ∀ p : List ProgressRow,
      countKey (p.map fun r => if rowKey r team stop then upd r else r)
        team stop = countKey p team stop := by
  intro p
  induction p with
  | nil => rfl
  | cons a rs ih =>
    cases ha : rowKey a team stop with
    | true =>
      have hk2 : rowKey (upd a) team stop = true := by
        rw [rowKey_congr a (upd a) team stop (hkt a) (hks a), ha]
      simp only [List.map_cons, ha, if_true, countKey, hk2, ih]
    | false =>
      simp only [List.map_cons, ha, Bool.false_eq_true, if_false, countKey, ih]

theorem countKey_le_one (team stop : JsStr) (p : List ProgressRow)
    (hinv : ProgressInv p) : countKey p team stop ≤ 1 := by
  induction p with
  | nil => simp [countKey]
  | cons a rs ih =>
    rcases List.pairwise_cons.mp hinv with ⟨hhead, htail⟩
    cases ha : rowKey a team stop with
    | false => simpa [countKey, ha] using ih htail
    | true =>
      have hz : countKey rs team stop = 0 := by
        apply countKey_eq_zero
        intro b hb
        cases hbk : rowKey b team stop with
        | false => rfl
        | true =>
          exfalso
          rcases (rowKey_iff a team stop).mp ha with ⟨ha1, ha2⟩
          rcases (rowKey_iff b team stop).mp hbk with ⟨hb1, hb2⟩
          exact hhead b hb ⟨ha1.trans hb1.symm, ha2.trans hb2.symm⟩
      simp [countKey, ha, hz]

theorem countKey_pos_of_any (team stop : JsStr) (p : List ProgressRow)
    (h : (p.any fun r => rowKey r team stop) = true) :
    1 ≤ countKey p team stop := by
  induction p with
  | nil => simp at h
  | cons a rs ih =>
    cases ha : rowKey a team stop with
    | true => simp [countKey, ha]
    | false =>
      simp only [List.any_cons, ha, Bool.false_or] at h
      simpa [countKey, ha] using ih h

theorem getRow_none_all_false (team stop : JsStr) (p : List ProgressRow)
    (h : getRow p team stop = none) : ∀ r ∈ p, rowKey r team stop = false := by
  induction p with
  | nil => simp
  | cons a rs ih =>
    cases ha : rowKey a team stop with
    | true => simp [getRow, ha] at h
    | false =>
      simp only [getRow, ha, Bool.false_eq_true, if_false] at h
      intro r hr
      rcases List.mem_cons.mp hr with rfl | hr2
      · exact ha
      · exact ih h r hr2

theorem upsertProgress_getRow (team stop : JsStr) (p : List ProgressRow)
    (ins : ProgressRow) (upd : ProgressRow → ProgressRow)
    (hins : rowKey ins team stop = true)
    (hkt : ∀ r, (upd r).team_id = r.team_id)
    (hks : ∀ r, (upd r).stop_id = r.stop_id) :
    getRow (upsertProgress p team stop ins upd) team stop =
      some ((getRow p team stop).elim ins upd) := by
  unfold upsertProgress
  cases hany : p.any (fun r => rowKey r team stop) with
  | false =>
    have hall : ∀ r ∈ p, rowKey r team stop = false := by
      intro r hr
      have := List.any_eq_false.mp hany r hr
      simpa using this
    have hnone : getRow p team stop = none :=
      getRow_eq_none_of_all_false team stop p hall
    simp only [hany, Bool.false_eq_true, if_false]
    rw [getRow_append_of_none team stop p [ins] hnone, hnone]
    simp [getRow, hins]
  | true =>
    simp only [hany, if_true]
    rw [getRow_map_cond team stop upd hkt hks p]
    cases hr : getRow p team stop with
    | none =>
      exfalso
      have hall := getRow_none_all_false team stop p hr
      rcases List.any_eq_true.mp hany with ⟨r, hrm, hrk⟩
      rw [hall r hrm] at hrk
      exact Bool.noConfusion hrk
    | some r => rfl

theorem upsertProgress_inv (team stop : JsStr) (p : List ProgressRow)
    (ins : ProgressRow) (upd : ProgressRow → ProgressRow)
    (hinv : ProgressInv p)
    (hins : rowKey ins team stop = true)
    (hkt : ∀ r, (upd r).team_id = r.team_id)
    (hks : ∀ r, (upd r).stop_id = r.stop_id) :
    ProgressInv (upsertProgress p team stop ins upd) := by
  unfold upsertProgress
  cases hany : p.any (fun r => rowKey r team stop) with
  | true =>
    simp only [hany, if_true]
    unfold ProgressInv
    rw [List.pairwise_map]
    apply List.Pairwise.imp ?_ hinv
    intro a b hab hcon
    apply hab
    rcases hcon with ⟨h1, h2⟩
    constructor
    · by_cases hak : rowKey a team stop = true <;>
        by_cases hbk : rowKey b team stop = true <;>
        simp [hak, hbk, hkt] at h1 <;> simpa [hkt] using h1
    · by_cases hak : rowKey a team stop = true <;>
        by_cases hbk : rowKey b team stop = true <;>
        simp [hak, hbk, hks] at h2 <;> simpa [hks] using h2
  | false =>
    simp only [hany, Bool.false_eq_true, if_false]
    unfold ProgressInv
    rw [List.pairwise_append]
    refine ⟨hinv, by simp, ?_⟩
    intro a ha b hb
    have hbeq : b = ins := by simpa using hb
    rcases (rowKey_iff ins team stop).mp hins with ⟨hi1, hi2⟩
    have hfa : rowKey a team stop = false := by
      have := List.any_eq_false.mp hany a ha
      simpa using this
    intro hcon
    rcases hcon with ⟨h1, h2⟩
    rw [hbeq] at h1 h2
    have hat : rowKey a team stop = true :=
      (rowKey_iff a team stop).mpr ⟨h1.trans hi1, h2.trans hi2⟩
    rw [hfa] at hat
    exact Bool.noConfusion hat

theorem upsertProgress_count (team stop : JsStr) (p : List ProgressRow)
    (ins : ProgressRow) (upd : ProgressRow → ProgressRow)
    (hinv : ProgressInv p)
    (hins : rowKey ins team stop = true)
    (hkt : ∀ r, (upd r).team_id = r.team_id)
    (hks : ∀ r, (upd r).stop_id = r.stop_id) :
    countKey (upsertProgress p team stop ins upd) team stop = 1 := by
  unfold upsertProgress
  cases hany : p.any (fun r => rowKey r team stop) with
  | true =>
    simp only [hany, if_true]
    rw [countKey_map_cond team stop upd hkt hks p]
    have h1 := countKey_le_one team stop p hinv
    have h2 := countKey_pos_of_any team stop p hany
    omega
  | false =>
    simp only [hany, Bool.false_eq_true, if_false]
    rw [countKey_append]
    have hall : ∀ r ∈ p, rowKey r team stop = false := by
      intro r hr
      have := List.any_eq_false.mp hany r hr
      simpa using this
    rw [countKey_eq_zero team stop p hall]
    simp [countKey, hins]

/-- Claim C2: when the run resolves to a team, both progress upserts
preserve the at-most-one-row-per-(team, stop) invariant; the hint upsert
never changes the pair's solved timestamp (so a set timestamp is never
cleared); the solved upsert leaves the hint-used flag exactly as it was (so
a true flag is never reset); and the solved upsert run twice leaves exactly
one row for the pair, carrying the second call's timestamp with the
hint-used flag still unchanged. -/
theorem progress_upserts (runs : JsStr → Option JsStr) (p : List ProgressRow)
    (runId stopId team : JsStr) (n1 n2 : Nat)
    (hinv : ProgressInv p) (hrun : runs runId = some team) :
    ProgressInv (upsertSolved runs p stopId runId n1)
    ∧ ProgressInv (upsertHint runs p stopId runId)
    ∧ (getRow (upsertHint runs p stopId runId) team stopId).bind
        ProgressRow.solved_at =
      (getRow p team stopId).bind ProgressRow.solved_at
    ∧ getRow (upsertSolved runs p stopId runId n1) team stopId =
      some ⟨team, stopId, some n1,
        (getRow p team stopId).elim false ProgressRow.used_hint⟩
    ∧ countKey (upsertSolved runs (upsertSolved runs p stopId runId n1)
        stopId runId n2) team stopId = 1
    ∧ getRow (upsertSolved runs (upsertSolved runs p stopId runId n1)
        stopId runId n2) team stopId =
      some ⟨team, stopId, some n2,
        (getRow p team stopId).elim false ProgressRow.used_hint⟩ := by
  have hS : ∀ (q : List ProgressRow) (n : Nat),
      upsertSolved runs q stopId runId n =
        upsertProgress q team stopId ⟨team, stopId, some n, false⟩
          (fun r => { r with solved_at := some n }) := by
    intro q n
    simp [upsertSolved, hrun]
  have hH : upsertHint runs p stopId runId =
      upsertProgress p team stopId ⟨team, stopId, none, true⟩
        (fun r => { r with used_hint := true }) := by
    simp [upsertHint, hrun]
  have hinsS : ∀ n : Nat,
      rowKey (⟨team, stopId, some n, false⟩ : ProgressRow) team stopId
        = true := by
    intro n
    simp [rowKey]
  have hinsH :
      rowKey (⟨team, stopId, none, true⟩ : ProgressRow) team stopId
        = true := by
    simp [rowKey]
  have hinv1 : ProgressInv (upsertSolved runs p stopId runId n1) := by
    rw [hS p n1]
    exact upsertProgress_inv team stopId p _ _ hinv (hinsS n1)
      (fun _ => rfl) (fun _ => rfl)
  have h4 : getRow (upsertSolved runs p stopId runId n1) team stopId =
      some ⟨team, stopId, some n1,
        (getRow p team stopId).elim false ProgressRow.used_hint⟩ := by
    rw [hS p n1, upsertProgress_getRow team stopId p
      ⟨team, stopId, some n1, false⟩
      (fun r => { r with solved_at := some n1 }) (hinsS n1)
      (fun _ => rfl) (fun _ => rfl)]
    cases hg : getRow p team stopId with
    | none => rfl
    | some r =>
      have hk := getRow_some_key team stopId p r hg
      rcases (rowKey_iff r team stopId).mp hk with ⟨h1, h2⟩
      cases r with
      | mk rt rsi rsa ruh =>
        simp only at h1 h2
        subst h1
        subst h2
        rfl
  refine ⟨hinv1, ?_, ?_, h4, ?_, ?_⟩
  · rw [hH]
    exact upsertProgress_inv team stopId p _ _ hinv hinsH
      (fun _ => rfl) (fun _ => rfl)
  · rw [hH, upsertProgress_getRow team stopId p
      ⟨team, stopId, none, true⟩
      (fun r => { r with used_hint := true }) hinsH
      (fun _ => rfl) (fun _ => rfl)]
    cases hg : getRow p team stopId with
    | none => rfl
    | some r => rfl
  · rw [hS _ n2]
    exact upsertProgress_count team stopId _ _ _ hinv1 (hinsS n2)
      (fun _ => rfl) (fun _ => rfl)
  · rw [hS _ n2, upsertProgress_getRow team stopId
      (upsertSolved runs p stopId runId n1)
      ⟨team, stopId, some n2, false⟩
      (fun r => { r with solved_at := some n2 }) (hinsS n2)
      (fun _ => rfl) (fun _ => rfl), h4]
    rfl

/-- A concrete one-run lookup table for exercising the upserts. -/
def wRuns : JsStr → Option JsStr :=
  fun r => if r = strLit "r1" then some (strLit "t1") else none

theorem progress_upserts_witness :
    countKey (upsertSolved wRuns
        (upsertSolved wRuns [] (strLit "s1") (strLit "r1") 1)
        (strLit "s1") (strLit "r1") 2) (strLit "t1") (strLit "s1") = 1
    ∧ getRow (upsertSolved wRuns
        (upsertSolved wRuns [] (strLit "s1") (strLit "r1") 1)
        (strLit "s1") (strLit "r1") 2) (strLit "t1") (strLit "s1") =
      some ⟨strLit "t1", strLit "s1", some 2, false⟩ := by
  have h := progress_upserts wRuns [] (strLit "r1") (strLit "s1")
    (strLit "t1") 1 2 List.Pairwise.nil (by simp [wRuns])
  exact ⟨h.2.2.2.2.1, by rw [h.2.2.2.2.2]; rfl⟩

/-! ## The throttle window -/

theorem lookupC_setC (st : CounterStore) (k : JsStr) (e : CEntry) :
    lookupC (setC st k e) k = some e := by
  simp [lookupC, setC, List.find?_cons]

theorem rlStoreStep_fresh (st : CounterStore) (k : JsStr) (now : Nat)
    (h : lookupC st k = none) :
    rlStoreStep st k now =
      (RlOutcome.proceed, setC (setC st k ⟨1, none⟩) k ⟨1, some (now + 30)⟩) := by
  simp [rlStoreStep, redisIncr, h, redisExpire, lookupC_setC]

theorem rlStoreStep_expired (st : CounterStore) (k : JsStr) (now c e : Nat)
    (h : lookupC st k = some ⟨c, some e⟩) (hex : e ≤ now) :
    rlStoreStep st k now =
      (RlOutcome.proceed, setC (setC st k ⟨1, none⟩) k ⟨1, some (now + 30)⟩) := by
  have hisex : isExpired ⟨c, some e⟩ now = true := by simp [isExpired, hex]
  simp [rlStoreStep, redisIncr, h, hisex, redisExpire, lookupC_setC]

theorem rlStoreStep_live (st : CounterStore) (k : JsStr) (now c e : Nat)
    (h : lookupC st k = some ⟨c, some e⟩) (hlt : now < e) (hc : 1 ≤ c) :
    rlStoreStep st k now =
      (if c + 1 > 25 then RlOutcome.throttled else RlOutcome.proceed,
        setC st k ⟨c + 1, some e⟩) := by
  have hisex : isExpired ⟨c, some e⟩ now = false := by
    simp [isExpired]
    omega
  simp [rlStoreStep, redisIncr, h, hisex, (show ¬(c + 1 = 1) by omega)]

theorem iterateRl_live (k : JsStr) (e : Nat) :
    ∀ (ts : List Nat) (st : CounterStore) (c : Nat),
      lookupC st k = some ⟨c, some e⟩ → (∀ t ∈ ts, t < e) → 1 ≤ c →
      (iterateRl st k ts).1.length = ts.length
      ∧ (∀ i, i < ts.length →
          (iterateRl st k ts).1.get? i =
            some (if c + i < 25 then RlOutcome.proceed
              else RlOutcome.throttled))
      ∧ lookupC (iterateRl st k ts).2 k = some ⟨c + ts.length, some e⟩ := by
  intro ts
  induction ts with
  | nil =>
    intro st c h hw hc
    exact ⟨rfl, by intro i hi; simp at hi, by simpa using h⟩
  | cons t ts ih =>
    intro st c h hw hc
    have hstep := rlStoreStep_live st k t c e h
      (hw t (List.mem_cons_self _ _)) hc
    have hlook : lookupC (setC st k ⟨c + 1, some e⟩) k =
        some ⟨c + 1, some e⟩ := lookupC_setC _ _ _
    obtain ⟨ih1, ih2, ih3⟩ := ih (setC st k ⟨c + 1, some e⟩) (c + 1) hlook
      (fun x hx => hw x (List.mem_cons_of_mem _ hx)) (by omega)
    refine ⟨?_, ?_, ?_⟩
    · simp only [iterateRl, hstep]
      simpa using ih1
    · intro i hi
      simp only [iterateRl, hstep]
      cases i with
      | zero =>
        by_cases hc25 : c < 25
        · simp [List.get?, hc25, (show ¬(c + 1 > 25) by omega)]
        · simp [List.get?, hc25, (show c + 1 > 25 by omega)]
      | succ j =>
        have hj : j < ts.length := by simpa using Nat.lt_of_succ_lt_succ hi
        have h2 := ih2 j hj
        have hadd : c + 1 + j = c + (j + 1) := by omega
        rw [hadd] at h2
        simpa using h2
    · simp only [iterateRl, hstep, List.length_cons]
      have hadd : c + 1 + ts.length = c + (ts.length + 1) := by omega
      rw [← hadd]
      simpa using ih3

/-- Claim C3: starting from a fresh key, the first increment creates the
counter and sets its 30-second expiry right then (and only then: a live
entry keeps its expiry on increment); within the window the first 25
submissions proceed and the 26th and later are throttled; after the expiry
time passes, the count resets and the next attempt proceeds as attempt 1
with a fresh window; and a throttled outcome makes the handler answer the
distinct 429 response. -/
theorem throttle_window_behavior (k : JsStr) (t0 : Nat) (ts : List Nat)
    (st0 : CounterStore) (hfresh : lookupC st0 k = none)
    (hwin : ∀ t ∈ ts, t < t0 + 30) :
    (iterateRl st0 k (t0 :: ts)).1.length = ts.length + 1
    ∧ (∀ i, i < ts.length + 1 →
        (iterateRl st0 k (t0 :: ts)).1.get? i =
          some (if i < 25 then RlOutcome.proceed else RlOutcome.throttled))
    ∧ lookupC (iterateRl st0 k (t0 :: ts)).2 k =
        some ⟨ts.length + 1, some (t0 + 30)⟩
    ∧ (∀ (st : CounterStore) (c e now : Nat),
        lookupC st k = some ⟨c, some e⟩ → now < e → 1 ≤ c →
        (rlStoreStep st k now).1 =
          (if c + 1 > 25 then RlOutcome.throttled else RlOutcome.proceed)
        ∧ lookupC (rlStoreStep st k now).2 k = some ⟨c + 1, some e⟩)
    ∧ (∀ (st : CounterStore) (c e now : Nat),
        lookupC st k = some ⟨c, some e⟩ → e ≤ now →
        (rlStoreStep st k now).1 = RlOutcome.proceed
        ∧ lookupC (rlStoreStep st k now).2 k = some ⟨1, some (now + 30)⟩)
    ∧ (∀ (kdf : JsStr → JsStr → List Nat) (db : Db) (conn : RedisConn)
        (req : AnswerReq) (now : Nat),
        isFalsy req.runId = false → isFalsy req.stopId = false →
        (rateLimitStep conn (rlKey (req.runId.getD []) (req.stopId.getD []))
          now).outcome = RlOutcome.throttled →
        answerHandler kdf db conn req now =
          Except.ok (Resp.tooMany, db,
            (rateLimitStep conn (rlKey (req.runId.getD [])
              (req.stopId.getD [])) now).conn)) := by
  have hstep0 := rlStoreStep_fresh st0 k t0 hfresh
  have hlook1 : lookupC (setC (setC st0 k ⟨1, none⟩) k ⟨1, some (t0 + 30)⟩) k =
      some ⟨1, some (t0 + 30)⟩ := lookupC_setC _ _ _
  obtain ⟨ih1, ih2, ih3⟩ := iterateRl_live k (t0 + 30) ts
    (setC (setC st0 k ⟨1, none⟩) k ⟨1, some (t0 + 30)⟩) 1 hlook1 hwin le_rfl
  refine ⟨?_, ?_, ?_, ?_, ?_, ?_⟩
  · simp only [iterateRl, hstep0]
    simpa using ih1
  · intro i hi
    simp only [iterateRl, hstep0]
    cases i with
    | zero => simp [List.get?]
    | succ j =>
      have hj : j < ts.length := by simpa using Nat.lt_of_succ_lt_succ hi
      have h2 := ih2 j hj
      have hadd : 1 + j = j + 1 := by omega
      rw [hadd] at h2
      simpa using h2
  · simp only [iterateRl, hstep0]
    have hadd : 1 + ts.length = ts.length + 1 := by omega
    rw [← hadd]
    simpa using ih3
  · intro st c e now h hlt hc
    rw [rlStoreStep_live st k now c e h hlt hc]
    exact ⟨rfl, lookupC_setC _ _ _⟩
  · intro st c e now h hex
    rw [rlStoreStep_expired st k now c e h hex]
    exact ⟨rfl, lookupC_setC _ _ _⟩
  · intro kdf db conn req now h1 h2 hthr
    simp [answerHandler, h1, h2, hthr]

theorem throttle_window_behavior_witness :
    (iterateRl [] (strLit "rl:r:s") (0 :: List.replicate 26 1)).1.get? 25 =
      some RlOutcome.throttled
    ∧ lookupC (iterateRl [] (strLit "rl:r:s") (0 :: List.replicate 26 1)).2
        (strLit "rl:r:s") = some ⟨27, some 30⟩ := by
  have h := throttle_window_behavior (strLit "rl:r:s") 0 (List.replicate 26 1)
    [] rfl (by
      intro t ht
      have := List.eq_of_mem_replicate ht
      omega)
  constructor
  · have h2 := h.2.1 25 (by simp)
    simpa using h2
  · simpa using h.2.2.1

/-! ## Fail-open throttling and handler ordering -/

/-- Claim C4: with the counter store absent, or raising on increment, the
rate-limit block yields permitted (proceed); the raising case is caught and
logged (`warned`); and in both cases the handler's answer is exactly the
verification flow's answer — the throttle surfaces no error to the
caller. -/
theorem rate_limit_fail_open (kdf : JsStr → JsStr → List Nat) (db : Db)
    (req : AnswerReq) (now : Nat) (st : CounterStore) (k : JsStr)
    (h1 : isFalsy req.runId = false) (h2 : isFalsy req.stopId = false) :
    (rateLimitStep RedisConn.absent k now).outcome = RlOutcome.proceed
    ∧ rateLimitStep (RedisConn.failing st) k now =
        ⟨RlOutcome.proceed, RedisConn.failing st, true⟩
    ∧ answerHandler kdf db RedisConn.absent req now =
        Except.map (fun p => (p.1, p.2, RedisConn.absent))
          (verificationFlow kdf db req now)
    ∧ answerHandler kdf db (RedisConn.failing st) req now =
        Except.map (fun p => (p.1, p.2, RedisConn.failing st))
          (verificationFlow kdf db req now) := by
  refine ⟨rfl, rfl, ?_, ?_⟩
  · cases hv : verificationFlow kdf db req now with
    | error e => simp [answerHandler, h1, h2, rateLimitStep, hv, Except.map]
    | ok p =>
      cases p with
      | mk resp db1 =>
        simp [answerHandler, h1, h2, rateLimitStep, hv, Except.map]
  · cases hv : verificationFlow kdf db req now with
    | error e => simp [answerHandler, h1, h2, rateLimitStep, hv, Except.map]
    | ok p =>
      cases p with
      | mk resp db1 =>
        simp [answerHandler, h1, h2, rateLimitStep, hv, Except.map]

/-- A database with no stops, runs, or progress. -/
def emptyDb : Db := ⟨fun _ => none, fun _ => none, []⟩

/-- A request with well-formed ids and no answer. -/
def reqRS : AnswerReq := ⟨some (strLit "r"), some (strLit "s"), none⟩

theorem rate_limit_fail_open_witness :
    (rateLimitStep RedisConn.absent (strLit "rl:r:s") 0).outcome =
      RlOutcome.proceed
    ∧ rateLimitStep (RedisConn.failing []) (strLit "rl:r:s") 0 =
        ⟨RlOutcome.proceed, RedisConn.failing [], true⟩ := by
  have h := rate_limit_fail_open (fun _ _ => []) emptyDb reqRS 0 []
    (strLit "rl:r:s") rfl rfl
  exact ⟨h.1, h.2.1⟩

/-- Claim C10: the rate-limit block runs before the stop lookup. For a
request naming an unknown stop: a live counter at or past the ceiling makes
the handler answer 429 (tooMany), not 404 — and the counter is still
incremented; below the ceiling the handler answers 404 with the counter
incremented; and a fresh key is created at count 1 with its expiry set, the
handler answering 404. -/
theorem throttle_precedes_stop_lookup (kdf : JsStr → JsStr → List Nat)
    (db : Db) (req : AnswerReq) (now : Nat) (rid sid : JsStr)
    (st : CounterStore)
    (h1 : req.runId = some rid) (h2 : rid ≠ [])
    (h3 : req.stopId = some sid) (h4 : sid ≠ [])
    (h5 : db.stops sid = none) :
    (∀ c e, lookupC st (rlKey rid sid) = some ⟨c, some e⟩ → now < e →
      (25 ≤ c →
        answerHandler kdf db (RedisConn.up st) req now =
          Except.ok (Resp.tooMany, db,
            RedisConn.up (setC st (rlKey rid sid) ⟨c + 1, some e⟩)))
      ∧ (1 ≤ c → c < 25 →
        answerHandler kdf db (RedisConn.up st) req now =
          Except.ok (Resp.notFound, db,
            RedisConn.up (setC st (rlKey rid sid) ⟨c + 1, some e⟩))))
    ∧ (lookupC st (rlKey rid sid) = none →
        answerHandler kdf db (RedisConn.up st) req now =
          Except.ok (Resp.notFound, db,
            RedisConn.up (setC (setC st (rlKey rid sid) ⟨1, none⟩)
              (rlKey rid sid) ⟨1, some (now + 30)⟩))) := by
  have hf1 : isFalsy req.runId = false := by
    rw [h1]
    simp [isFalsy, h2]
  have hf2 : isFalsy req.stopId = false := by
    rw [h3]
    simp [isFalsy, h4]
  have hg1 : isFalsy (some rid) = false := by simp [isFalsy, h2]
  have hg2 : isFalsy (some sid) = false := by simp [isFalsy, h4]
  constructor
  · intro c e hl hlt
    constructor
    · intro hc
      have hstep := rlStoreStep_live st (rlKey rid sid) now c e hl hlt
        (by omega)
      simp [answerHandler, hf1, hf2, hg1, hg2, h1, h3, rateLimitStep, hstep,
        (show c + 1 > 25 by omega)]
    · intro hc1 hc2
      have hstep := rlStoreStep_live st (rlKey rid sid) now c e hl hlt hc1
      simp [answerHandler, hf1, hf2, hg1, hg2, h1, h3, rateLimitStep, hstep,
        (show ¬(c + 1 > 25) by omega), verificationFlow, h5]
  · intro hl
    have hstep := rlStoreStep_fresh st (rlKey rid sid) now hl
    simp [answerHandler, hf1, hf2, hg1, hg2, h1, h3, rateLimitStep, hstep,
      verificationFlow, h5]

theorem throttle_precedes_stop_lookup_witness :
    answerHandler (fun _ _ => []) emptyDb
      (RedisConn.up [(rlKey (strLit "r") (strLit "s"), ⟨25, some 30⟩)])
      reqRS 0 =
      Except.ok (Resp.tooMany, emptyDb,
        RedisConn.up (setC [(rlKey (strLit "r") (strLit "s"), ⟨25, some 30⟩)]
          (rlKey (strLit "r") (strLit "s")) ⟨26, some 30⟩)) := by
  have h := throttle_precedes_stop_lookup (fun _ _ => []) emptyDb reqRS 0
    (strLit "r") (strLit "s")
    [(rlKey (strLit "r") (strLit "s"), ⟨25, some 30⟩)]
    rfl (by decide) rfl (by decide) rfl
  exact (h.1 25 30 (by decide) (by decide)).1 (by decide)

/-! ## The missing-run path of the answer handler -/

/-- A database holding stop s1 with a plaintext credential, and no runs. -/
def c1Db : Db :=
  ⟨fun s => if s = strLit "s1" then
      some ⟨strLit "plain:de waag", none, 10⟩ else none,
    fun _ => none, []⟩

/-- A submission for stop s1 under a run id that matches no run. -/
def c1Req : AnswerReq :=
  ⟨some (strLit "r1"), some (strLit "s1"), some (strLit "De Waag")⟩

/-- Claim C1, evaluated on the code at the failing input: stop s1 exists,
run r1 does not, and the answer is correct. The handler reports success
(200 with correct:true) while the progress table stays unchanged (empty);
no run-or-stop-not-found condition is signalled for the unknown run. -/
theorem run_missing_reports_success :
    answerHandler (fun _ _ => []) c1Db RedisConn.absent c1Req 7 =
      Except.ok (Resp.answer true, c1Db, RedisConn.absent)
    ∧ c1Db.progress = [] := by
  constructor
  · rfl
  · rfl
